import Mathlib

/-!
Verification of the tiny job-control shell `tsh.c`.

The job table, its operations (`addjob`, `deletejob`, `maxjid`, `fgpid`,
`getjobpid`, `getjobjid`, `pid2jid`), the command-line parser `parseline`,
the builtin dispatch of `eval`/`builtin_cmd`/`do_bgfg`, the foreground-wait
guard of `waitfg`, and the per-reap behaviour of `sigchld_handler` are
translated from the C source into executable Lean definitions.  Machine
`int`/`pid_t` values are modelled as `Int`; the fixed-size array
`struct job_t jobs[MAXJOBS]` is modelled as a `List` of job records of
length `MAXJOBS` (the operations scan it front to back exactly as the C
loops scan indices `0 .. MAXJOBS-1`).
-/

namespace Tsh

/-- `MAXJOBS` from tsh.c: capacity of the job table. -/
def MAXJOBS : Int := 16

/-- Job state `UNDEF` (0). -/
def UNDEF : Int := 0
/-- Job state `FG` (1): running in foreground. -/
def FG : Int := 1
/-- Job state `BG` (2): running in background. -/
def BG : Int := 2
/-- Job state `ST` (3): stopped. -/
def ST : Int := 3

/-- `struct job_t`: one slot of the job table. -/
structure Jobt where
  pid : Int
  jid : Int
  state : Int
  cmdline : String
deriving DecidableEq

/-- `clearjob`: the fully reset slot value (pid 0, jid 0, state UNDEF, empty line). -/
def clearedJob : Jobt := ⟨0, 0, UNDEF, ""⟩

/-- The shell's job-table state: the slot array `jobs` and the global `nextjid`. -/
structure ShellState where
  jobs : List Jobt
  nextjid : Int
deriving DecidableEq

/-- `initjobs` plus `int nextjid = 1`: the initial empty table. -/
def initState : ShellState := ⟨List.replicate 16 clearedJob, 1⟩

/-- The loop body of `maxjid`: running maximum `max`, updated by `if (jobs[i].jid > max) max = jobs[i].jid`. -/
def maxjidAux : Int → List Jobt → Int
  | m, [] => m
  | m, j :: js => maxjidAux (if j.jid > m then j.jid else m) js

/-- `maxjid`: largest `jid` over all slots (free slots included, whose jid is 0 in clean states). -/
def maxjid (l : List Jobt) : Int := maxjidAux 0 l

/-- The scan of `addjob`: replace the first slot with `pid == 0` by the new job, or fail. -/
def addjobAux (newJob : Jobt) : List Jobt → Option (List Jobt)
  | [] => none
  | j :: js =>
      if j.pid = 0 then some (newJob :: js)
      else (addjobAux newJob js).map (fun l => j :: l)

/-- `addjob(jobs, pid, state, cmdline)`: rejects `pid < 1`; otherwise claims the first
free slot, assigns `nextjid` as the job id and advances `nextjid`, wrapping to 1
when it would exceed `MAXJOBS`; returns false untouched when the table is full. -/
def addjob (s : ShellState) (pid state : Int) (cmdline : String) : Bool × ShellState :=
  if pid < 1 then (false, s)
  else
    match addjobAux ⟨pid, s.nextjid, state, cmdline⟩ s.jobs with
    | some l => (true, ⟨l, if s.nextjid + 1 > MAXJOBS then 1 else s.nextjid + 1⟩)
    | none => (false, s)

/-- The scan of `deletejob`: clear the first slot whose `pid` matches, or fail. -/
def deletejobAux (pid : Int) : List Jobt → Option (List Jobt)
  | [] => none
  | j :: js =>
      if j.pid = pid then some (clearedJob :: js)
      else (deletejobAux pid js).map (fun l => j :: l)

/-- `deletejob(jobs, pid)`: rejects `pid < 1`; otherwise clears the first matching
slot and recomputes `nextjid = maxjid(jobs) + 1`; returns false untouched when
no slot matches. -/
def deletejob (s : ShellState) (pid : Int) : Bool × ShellState :=
  if pid < 1 then (false, s)
  else
    match deletejobAux pid s.jobs with
    | some l => (true, ⟨l, maxjid l + 1⟩)
    | none => (false, s)

/-- `fgpid`: pid of the first slot whose state is `FG`, else 0. -/
def fgpid (l : List Jobt) : Int :=
  match l.find? (fun j => j.state == FG) with
  | some j => j.pid
  | none => 0

/-- `getjobpid`: first slot whose pid matches; `NULL` (none) for `pid < 1` or no match. -/
def getjobpid (l : List Jobt) (pid : Int) : Option Jobt :=
  if pid < 1 then none else l.find? (fun j => j.pid == pid)

/-- `getjobjid`: first slot whose jid matches; `NULL` (none) for `jid < 1` or no match. -/
def getjobjid (l : List Jobt) (jid : Int) : Option Jobt :=
  if jid < 1 then none else l.find? (fun j => j.jid == jid)

/-- `pid2jid`: the jid of the first slot whose pid matches, 0 for `pid < 1` or no match. -/
def pid2jid (l : List Jobt) (pid : Int) : Int :=
  if pid < 1 then 0
  else
    match l.find? (fun j => j.pid == pid) with
    | some j => j.jid
    | none => 0

/-- The guard of `waitfg`'s loop: `while (pid2jid(pid) && pid == fgpid(jobs))`.
The loop keeps suspending exactly while this is true. -/
def waitfgCond (s : ShellState) (pid : Int) : Bool :=
  (pid2jid s.jobs pid != 0) && (pid == fgpid s.jobs)

/-! ### The SIGCHLD handler, the SIGTSTP handler and `do_bgfg` -/

/-- A reaped child's wait status, as the `waitpid(-1, &status, WNOHANG | WUNTRACED)`
loop observes it: exited normally, terminated by a signal, or stopped by a signal. -/
inductive WStatus where
  | exited (code : Int)
  | signaled (sig : Int)
  | stopped (sig : Int)
deriving DecidableEq

/-- `WIFEXITED`. -/
def wifexited : WStatus → Bool
  | .exited _ => true
  | _ => false

/-- `WIFSIGNALED`. -/
def wifsignaled : WStatus → Bool
  | .signaled _ => true
  | _ => false

/-- `WIFSTOPPED`. -/
def wifstopped : WStatus → Bool
  | .stopped _ => true
  | _ => false

/-- `WTERMSIG` (0 when not signal-terminated; the handler only reads it after `WIFSIGNALED`). -/
def wtermsig : WStatus → Int
  | .signaled n => n
  | _ => 0

/-- `WSTOPSIG` (0 when not stopped; the handler only reads it after `WIFSTOPPED`). -/
def wstopsig : WStatus → Int
  | .stopped n => n
  | _ => 0

/-- The `Job [jid] (pid) terminated by signal n` line of `sigchld_handler`. -/
def termMsg (jid pid n : Int) : String :=
  "Job [" ++ toString jid ++ "] (" ++ toString pid ++ ") terminated by signal " ++
    toString n ++ "\n"

/-- The `Job [jid] (pid) stopped by signal n` line of `sigchld_handler`. -/
def stopMsg (jid pid n : Int) : String :=
  "Job [" ++ toString jid ++ "] (" ++ toString pid ++ ") stopped by signal " ++
    toString n ++ "\n"

/-- One iteration of `sigchld_handler`'s reaping loop, for a child `pid` reaped with
status `w`: computes `jid = pid2jid(pid)`, prints the termination/stop notice, and
deletes the job exactly when `WIFEXITED(status) || WIFSIGNALED(status)`.  Returns the
new state and the lines written to stdout.  Note the C handler never modifies a
job's `state` field. -/
def sigchldStep (s : ShellState) (pid : Int) (w : WStatus) : ShellState × List String :=
  let jid := pid2jid s.jobs pid
  let msgs :=
    if wifsignaled w then [termMsg jid pid (wtermsig w)]
    else if wifstopped w then [stopMsg jid pid (wstopsig w)]
    else []
  let s' := if wifexited w || wifsignaled w then (deletejob s pid).2 else s
  (s', msgs)

/-- Mutate the first slot satisfying `p` to have state `st` (models the C idiom of
looking a `struct job_t *` up and assigning `job -> state`). -/
def setStateFirst (p : Jobt → Bool) (st : Int) : List Jobt → List Jobt
  | [] => []
  | j :: js => if p j then { j with state := st } :: js else j :: setStateFirst p st js

/-- `sigtstp_handler`'s table effect: if a foreground job exists, mark the slot
`getjobpid(jobs, fgpid(jobs))` as `ST` (the SIGTSTP forwarded to the process group
is an external effect and is not part of the table state). -/
def sigtstpStep (s : ShellState) : ShellState :=
  let p := fgpid s.jobs
  if p = 0 then s else ⟨setStateFirst (fun j => j.pid == p) ST s.jobs, s.nextjid⟩

/-- `do_bgfg`'s table effect once the jobspec has been parsed to `jid`.
`getjobjid` returning `NULL` means the C code dereferences a null pointer
(`*pid = job -> pid`); that undefined crash is modelled as `none`.  On success the
result is the new state, the value stored through the `pid` out-parameter, and the
lines written (`bg` announces `[jid] (pid) cmdline`; the SIGCONT sent by `kill` is
an external effect). -/
def doBgfg (s : ShellState) (isBg : Bool) (jid : Int) :
    Option (ShellState × Int × List String) :=
  match getjobjid s.jobs jid with
  | none => none
  | some job =>
      let pid := job.pid
      if isBg then
        some (⟨setStateFirst (fun j => j.jid == jid) BG s.jobs, s.nextjid⟩, pid,
          ["[" ++ toString jid ++ "] (" ++ toString pid ++ ") " ++ job.cmdline])
      else
        some (⟨setStateFirst (fun j => j.jid == jid) FG s.jobs, s.nextjid⟩, pid, [])

/-! ### `parseline` -/

/-- The single-quote character (written via its code point to keep the sources plain). -/
def quoteChar : Char := Char.ofNat 39

/-- `buf[strlen(buf)-1] = ' '`: replace the final character (the trailing newline)
with a space.  The C code indexes `buf[-1]` on an empty line, which cannot happen
for `fgets` input; the empty case is mapped to the empty list. -/
def replaceLastSpace : List Char → List Char
  | [] => []
  | l => l.dropLast ++ [' ']

/-- Position of the token-building loop of `parseline` between characters:
`skipSp` is the state of the `while (*buf == ' ') buf++` space skipping (before a
token), `plain acc` is inside an unquoted token (`delim = strchr(buf, ' ')` — the
token runs to the next space), and `quoted acc` is inside a single-quoted token
(`buf++; delim = strchr(buf, 0x27)` — the token runs to the closing quote).
`acc` holds the token's characters so far, in reverse. -/
inductive PMode where
  | skipSp
  | plain (acc : List Char)
  | quoted (acc : List Char)
deriving DecidableEq

/-- The token-building loop of `parseline`, one character at a time.  When the
input ends inside a token, `strchr` returned `NULL` in the C loop and the partial
token is dropped, exactly as here.  An empty quoted token (two adjacent quotes)
is emitted as an empty argument, as in the C code. -/
def toksRun : PMode → List Char → List (List Char)
  | PMode.skipSp, [] => []
  | PMode.plain _, [] => []
  | PMode.quoted _, [] => []
  | PMode.skipSp, c :: cs =>
      if c = ' ' then toksRun PMode.skipSp cs
      else if c = quoteChar then toksRun (PMode.quoted []) cs
      else toksRun (PMode.plain [c]) cs
  | PMode.plain acc, c :: cs =>
      if c = ' ' then acc.reverse :: toksRun PMode.skipSp cs
      else toksRun (PMode.plain (c :: acc)) cs
  | PMode.quoted acc, c :: cs =>
      if c = quoteChar then acc.reverse :: toksRun PMode.skipSp cs
      else toksRun (PMode.quoted (c :: acc)) cs

/-- The full token scan of `parseline`: leading spaces skipped, then the loop. -/
def toks (l : List Char) : List (List Char) := toksRun PMode.skipSp l

/-- `parseline(cmdline, argv)`: build the argument vector and the background flag.
A blank line (`argc == 0`) reports background.  Otherwise the background flag is
`*argv[argc-1] == 0x26` (the first character of the last built argument), and in
that case the whole final argument is dropped (`argv[--argc] = NULL`). -/
def parseline (cmdline : String) : List String × Bool :=
  let ts := toks (replaceLastSpace cmdline.data)
  match ts.getLast? with
  | none => ([], true)
  | some t =>
      if t.head? = some '&' then ((ts.dropLast).map (fun l => String.mk l), true)
      else (ts.map (fun l => String.mk l), false)

/-! ### `eval` and `builtin_cmd` -/

/-- `sscanf(argv[1], "%%%d", &jid)` for the well-defined cases: a leading percent
sign followed by at least one digit parses to that number.  When the conversion
fails (or `argv[1]` is `NULL`, handled at the call site) the C code goes on with
an uninitialized `jid`; that undefined outcome is modelled as `none`. -/
def parseJobspec (a : String) : Option Int :=
  match a.data with
  | [] => none
  | c :: rest =>
      if c = '%' ∧ rest.takeWhile Char.isDigit ≠ [] then
        some ((rest.takeWhile Char.isDigit).foldl
          (fun acc d => acc * 10 + ((d.toNat : Int) - 48)) 0)
      else none

/-- The observable outcome of one `eval(cmdline)` call: whether the shell exited
(`quit`), whether a child was forked, the job-table state when `waitfg` is
reached, and whether the `waitfg` guard holds there (i.e. whether `eval` blocks). -/
structure EvalOut where
  exited : Bool
  spawned : Bool
  state : ShellState
  waits : Bool
deriving DecidableEq

/-- `eval(cmdline)` followed by its unconditional `waitfg(pid)` call, composed from
`parseline`, `builtin_cmd`, `do_bgfg`, `addjob` and the `waitfg` guard.
`junk` is the value of the stack variable `pid` when no branch assigns it (the
`jobs` builtin leaves it uninitialized before `waitfg(pid)` runs); `forked` is the
process id `fork()` returns in the parent for a non-builtin command.  `none`
models an undefined outcome (the null-pointer dereference in `do_bgfg` on an
unknown or malformed jobspec, or `builtin_cmd`'s `strcmp(argv[0], ...)` on the
`NULL` argv of a blank line). -/
def evalModel (junk forked : Int) (s : ShellState) (cmdline : String) : Option EvalOut :=
  match parseline cmdline with
  | (argv, bgFlag) =>
      match argv with
      | [] => none
      | a0 :: rest =>
          if a0 = "quit" then some ⟨true, false, s, false⟩
          else if a0 = "jobs" then some ⟨false, false, s, waitfgCond s junk⟩
          else if a0 = "fg" ∨ a0 = "bg" then
            match rest.head? with
            | none => none
            | some a1 =>
                match parseJobspec a1 with
                | none => none
                | some jid =>
                    match doBgfg s (a0 == "bg") jid with
                    | none => none
                    | some (s', pidv, _) => some ⟨false, false, s', waitfgCond s' pidv⟩
          else
            let r := addjob s forked (if bgFlag then BG else FG) cmdline
            some ⟨false, true, r.2, waitfgCond r.2 forked⟩

/-! ### Sequences of job-table operations (for the table invariants) -/

/-- One call to `addjob` or `deletejob` on the global table. -/
inductive JOp where
  | add (pid state : Int) (cmdline : String)
  | del (pid : Int)
deriving DecidableEq

/-- Execute one operation (the returned success flag is discarded). -/
def execJOp (s : ShellState) : JOp → ShellState
  | JOp.add pid st cl => (addjob s pid st cl).2
  | JOp.del pid => (deletejob s pid).2

/-- Run a sequence of `addjob`/`deletejob` calls from the initial empty table. -/
def runJOps (ops : List JOp) : ShellState := ops.foldl execJOp initState

/-- The number of `addjob` calls in a sequence. -/
def countAdds (ops : List JOp) : Nat :=
  ops.countP (fun o => match o with | JOp.add _ _ _ => true | JOp.del _ => false)

/-- No two in-use slots (slots with `pid != 0`) hold the same job id. -/
def distinctJids (l : List Jobt) : Prop :=
  l.Pairwise (fun a b => a.pid ≠ 0 → b.pid ≠ 0 → a.jid ≠ b.jid)

instance (l : List Jobt) : Decidable (distinctJids l) := by
  unfold distinctJids; infer_instance

/-! ### The shell's table-mutating events (for the foreground-uniqueness invariant) -/

/-- The table-mutating steps of the shell: `eval` registering a spawned child
(foreground or background), `do_bgfg` driven by the `fg`/`bg` builtins, the
SIGTSTP handler, and one reap of the SIGCHLD handler. -/
inductive ShellEvent where
  | spawn (pid : Int) (isBg : Bool) (cmdline : String)
  | cmdFg (jid : Int)
  | cmdBg (jid : Int)
  | tstp
  | reap (pid : Int) (w : WStatus)
deriving DecidableEq

/-- The table effect of one shell event (output and the undefined `do_bgfg`
crash are ignored: a crashed shell makes no further table updates, so mapping
the crash to "no change" only adds reachable states). -/
def stepEv (s : ShellState) : ShellEvent → ShellState
  | ShellEvent.spawn pid isBg cl => (addjob s pid (if isBg then BG else FG) cl).2
  | ShellEvent.cmdFg jid =>
      match doBgfg s false jid with
      | some (s', _, _) => s'
      | none => s
  | ShellEvent.cmdBg jid =>
      match doBgfg s true jid with
      | some (s', _, _) => s'
      | none => s
  | ShellEvent.tstp => sigtstpStep s
  | ShellEvent.reap pid w => (sigchldStep s pid w).1

/-- Job-table states reachable by the shell.  A foreground job is only ever
created by `eval` spawning a foreground command or by the `fg` builtin, and both
run in the main read-eval loop, which `waitfg` blocks while a foreground job
exists: so those two events only fire in states with `fgpid(jobs) == 0`.  That
main-loop convention is the guard of `spawnFG` and `cmdFg`; all other events are
unguarded (handlers and the `bg` builtin can fire at any point). -/
inductive Reachable : ShellState → Prop
  | init : Reachable initState
  | spawnBG (s : ShellState) (pid : Int) (cl : String) : Reachable s →
      Reachable (stepEv s (ShellEvent.spawn pid true cl))
  | spawnFG (s : ShellState) (pid : Int) (cl : String) : Reachable s →
      fgpid s.jobs = 0 → Reachable (stepEv s (ShellEvent.spawn pid false cl))
  | cmdFg (s : ShellState) (jid : Int) : Reachable s →
      fgpid s.jobs = 0 → Reachable (stepEv s (ShellEvent.cmdFg jid))
  | cmdBg (s : ShellState) (jid : Int) : Reachable s →
      Reachable (stepEv s (ShellEvent.cmdBg jid))
  | tstp (s : ShellState) : Reachable s → Reachable (stepEv s ShellEvent.tstp)
  | reap (s : ShellState) (pid : Int) (w : WStatus) : Reachable s →
      Reachable (stepEv s (ShellEvent.reap pid w))

/-- Number of in-use slots in state `FG` (the claim: this never exceeds 1). -/
def countFG (l : List Jobt) : Nat :=
  l.countP (fun j => j.pid != 0 && j.state == FG)

/-! ### Claim-side definitions (written from the specification's words, for the
refinement claims about `addjob` and `deletejob`, and for the whitespace
tokenization the parser claim describes) -/

/-- Claim-side `addjob`: fail (unchanged) when `pid <= 0` or no slot has `pid == 0`;
otherwise claim the lowest-indexed free slot, store pid/state/cmdline there with
the current `nextjid` as job id, and advance `nextjid` by one, wrapping back to 1
if it would exceed the table capacity. -/
def addjobClaim (s : ShellState) (pid state : Int) (cmdline : String) : Bool × ShellState :=
  if pid ≤ 0 then (false, s)
  else
    match s.jobs.findIdx? (fun j => j.pid == 0) with
    | none => (false, s)
    | some i =>
        (true, ⟨s.jobs.set i ⟨pid, s.nextjid, state, cmdline⟩,
          if s.nextjid + 1 > MAXJOBS then 1 else s.nextjid + 1⟩)

/-- Maximum job id over the in-use slots (0 when the table is empty): running
maximum over slots with `pid != 0`. -/
def maxInUseAux : Int → List Jobt → Int
  | m, [] => m
  | m, j :: js => maxInUseAux (if j.pid ≠ 0 ∧ j.jid > m then j.jid else m) js

/-- Maximum job id currently in use, 0 for an empty table. -/
def maxInUseJid (l : List Jobt) : Int := maxInUseAux 0 l

/-- Claim-side `deletejob`: fail (unchanged) when no in-use slot has that process
id; otherwise reset the matching slot completely and set `nextjid` to one greater
than the maximum job id still in use. -/
def deletejobClaim (s : ShellState) (pid : Int) : Bool × ShellState :=
  match s.jobs.findIdx? (fun j => j.pid == pid && j.pid != 0) with
  | none => (false, s)
  | some i =>
      let l := s.jobs.set i clearedJob
      (true, ⟨l, maxInUseJid l + 1⟩)

/-- Splitting a line into whitespace-delimited tokens (the tokens the parser
claim speaks about): `none` means "between tokens", `some acc` accumulates the
current token in reverse. -/
def wsRun : Option (List Char) → List Char → List (List Char)
  | none, [] => []
  | some acc, [] => [acc.reverse]
  | none, c :: cs => if c = ' ' then wsRun none cs else wsRun (some [c]) cs
  | some acc, c :: cs =>
      if c = ' ' then acc.reverse :: wsRun none cs else wsRun (some (c :: acc)) cs

/-- The whitespace-delimited tokens of a character list. -/
def wsToks (l : List Char) : List (List Char) := wsRun none l

/-- The background condition exactly as the parser claim states it: the line has
no whitespace-delimited tokens at all, or the first character of the last
whitespace-delimited token is the ampersand.  (The trailing newline is not part
of the line's tokens.) -/
def claimBg (cmdline : String) : Bool :=
  match (wsToks cmdline.data.dropLast).getLast? with
  | none => true
  | some t => t.head? == some '&'

/-! ### Concrete inputs used by witnesses and counterexamples -/

/-- 18 operations: add pids 1–15, delete pid 2 (its job has jid 2), then add two
more jobs.  The 16th add assigns jid 16 and wraps `nextjid` to 1 while the job
with jid 1 is still alive, so the 17th add duplicates jid 1. -/
def dupJidOps : List JOp :=
  (List.range 15).map (fun i => JOp.add ((i : Int) + 1) BG "c\n") ++
    [JOp.del 2, JOp.add 16 BG "c\n", JOp.add 17 BG "c\n"]

/-- 16 adds: the 16th assigns jid 16 and wraps `nextjid` back to 1, below every
in-use jid. -/
def wrapOps : List JOp :=
  (List.range 16).map (fun i => JOp.add ((i : Int) + 1) BG "c\n")

/-- A table holding one foreground job, pid 7 / jid 1 (plus 15 free slots). -/
def oneFgState : ShellState :=
  ⟨⟨7, 1, FG, "sleep 9\n"⟩ :: List.replicate 15 clearedJob, 2⟩

/-- A table holding one stopped job, pid 7 / jid 1 (plus 15 free slots). -/
def oneStState : ShellState :=
  ⟨⟨7, 1, ST, "sleep 9\n"⟩ :: List.replicate 15 clearedJob, 2⟩

/-- A table holding one background job, pid 7 / jid 1 (plus 15 free slots). -/
def oneBgState : ShellState :=
  ⟨⟨7, 1, BG, "sleep 9\n"⟩ :: List.replicate 15 clearedJob, 2⟩

/-- The quoted command line starting with an ampersand inside the quotes. -/
def quotedAmpLine : String := String.mk [quoteChar, '&', 'x', quoteChar, '\n']

/-! ### Lemmas about `maxjid` -/

theorem maxjidAux_acc_le (l : List Jobt) : ∀ m : Int, m ≤ maxjidAux m l := by
  induction l with
  | nil => intro m; simp [maxjidAux]
  | cons j js ih =>
      intro m
      simp only [maxjidAux]
      refine le_trans ?_ (ih _)
      split <;> omega

theorem le_maxjidAux (l : List Jobt) : ∀ m : Int, ∀ j ∈ l, j.jid ≤ maxjidAux m l := by
  induction l with
  | nil => intro m j hj; simp at hj
  | cons x xs ih =>
      intro m j hj
      rcases List.mem_cons.mp hj with h | h
      · subst h
        simp only [maxjidAux]
        refine le_trans ?_ (maxjidAux_acc_le xs _)
        split <;> omega
      · exact ih _ j h

theorem maxjidAux_le (l : List Jobt) : ∀ m b : Int, m ≤ b → (∀ j ∈ l, j.jid ≤ b) →
    maxjidAux m l ≤ b := by
  induction l with
  | nil => intro m b hm _; simpa [maxjidAux] using hm
  | cons x xs ih =>
      intro m b hm hall
      simp only [maxjidAux]
      refine ih _ _ ?_ (fun j hj => hall j (List.mem_cons_of_mem _ hj))
      have := hall x (List.mem_cons_self _ _)
      split <;> omega

theorem maxjid_nonneg (l : List Jobt) : 0 ≤ maxjid l := maxjidAux_acc_le l 0

theorem le_maxjid (l : List Jobt) (j : Jobt) (hj : j ∈ l) : j.jid ≤ maxjid l :=
  le_maxjidAux l 0 j hj

theorem maxjid_le (l : List Jobt) (b : Int) (hb : 0 ≤ b) (h : ∀ j ∈ l, j.jid ≤ b) :
    maxjid l ≤ b := maxjidAux_le l 0 b hb h

/-! ### Lemmas about the scans of `addjob` and `deletejob` -/

theorem addjobAux_none_iff (nj : Jobt) (l : List Jobt) :
    addjobAux nj l = none ↔ ∀ j ∈ l, j.pid ≠ 0 := by
  induction l with
  | nil => simp [addjobAux]
  | cons x xs ih =>
      by_cases h : x.pid = 0
      · simp [addjobAux, h]
      · cases hxs : addjobAux nj xs with
        | none =>
            simp only [addjobAux, if_neg h, hxs, Option.map_none']
            constructor
            · intro _ j hj
              rcases List.mem_cons.mp hj with h1 | h1
              · rw [h1]; exact h
              · exact ih.mp hxs j h1
            · intro _; trivial
        | some l' =>
            simp only [addjobAux, if_neg h, hxs, Option.map_some']
            constructor
            · intro hc; exact absurd hc (by simp)
            · intro hall
              have := (ih.mpr (fun j hj => hall j (List.mem_cons_of_mem _ hj)))
              simp [this] at hxs

theorem addjobAux_mem (nj : Jobt) : ∀ (l l' : List Jobt), addjobAux nj l = some l' →
    ∀ j ∈ l', j ∈ l ∨ j = nj := by
  intro l
  induction l with
  | nil => intro l' h; simp [addjobAux] at h
  | cons x xs ih =>
      intro l' h j hj
      by_cases hx : x.pid = 0
      · simp only [addjobAux, if_pos hx] at h
        cases h
        rcases List.mem_cons.mp hj with h | h
        · exact Or.inr h
        · exact Or.inl (List.mem_cons_of_mem _ h)
      · simp only [addjobAux, if_neg hx] at h
        cases hxs : addjobAux nj xs with
        | none => rw [hxs] at h; simp at h
        | some ys =>
            rw [hxs] at h; simp at h
            subst h
            rcases List.mem_cons.mp hj with h | h
            · exact Or.inl (by simp [h])
            · rcases ih ys hxs j h with h2 | h2
              · exact Or.inl (List.mem_cons_of_mem _ h2)
              · exact Or.inr h2

theorem addjobAux_forall {P : Jobt → Prop} (nj : Jobt) (l l' : List Jobt)
    (h : addjobAux nj l = some l') (hall : ∀ j ∈ l, P j) (hnj : P nj) :
    ∀ j ∈ l', P j := by
  intro j hj
  rcases addjobAux_mem nj l l' h j hj with h2 | h2
  · exact hall j h2
  · exact h2 ▸ hnj

theorem addjobAux_pairwise {R : Jobt → Jobt → Prop} (nj : Jobt) :
    ∀ (l l' : List Jobt), addjobAux nj l = some l' → l.Pairwise R →
      (∀ j ∈ l, R nj j) → (∀ j ∈ l, R j nj) → l'.Pairwise R := by
  intro l
  induction l with
  | nil => intro l' h; simp [addjobAux] at h
  | cons x xs ih =>
      intro l' h hp hforward hback
      by_cases hx : x.pid = 0
      · simp only [addjobAux, if_pos hx] at h
        cases h
        exact List.pairwise_cons.mpr
          ⟨fun j hj => hforward j (List.mem_cons_of_mem _ hj),
           (List.pairwise_cons.mp hp).2⟩
      · simp only [addjobAux, if_neg hx] at h
        cases hxs : addjobAux nj xs with
        | none => rw [hxs] at h; simp at h
        | some ys =>
            rw [hxs] at h; simp at h
            subst h
            rcases List.pairwise_cons.mp hp with ⟨hx1, hx2⟩
            refine List.pairwise_cons.mpr ⟨?_, ?_⟩
            · intro j hj
              rcases addjobAux_mem nj xs ys hxs j hj with h2 | h2
              · exact hx1 j h2
              · exact h2 ▸ hback x (List.mem_cons_self _ _)
            · exact ih ys hxs hx2
                (fun j hj => hforward j (List.mem_cons_of_mem _ hj))
                (fun j hj => hback j (List.mem_cons_of_mem _ hj))

theorem deletejobAux_none_iff (pid : Int) (l : List Jobt) :
    deletejobAux pid l = none ↔ ∀ j ∈ l, j.pid ≠ pid := by
  induction l with
  | nil => simp [deletejobAux]
  | cons x xs ih =>
      by_cases h : x.pid = pid
      · simp [deletejobAux, h]
      · cases hxs : deletejobAux pid xs with
        | none =>
            simp only [deletejobAux, if_neg h, hxs, Option.map_none']
            constructor
            · intro _ j hj
              rcases List.mem_cons.mp hj with h1 | h1
              · rw [h1]; exact h
              · exact ih.mp hxs j h1
            · intro _; trivial
        | some l' =>
            simp only [deletejobAux, if_neg h, hxs, Option.map_some']
            constructor
            · intro hc; exact absurd hc (by simp)
            · intro hall
              have := (ih.mpr (fun j hj => hall j (List.mem_cons_of_mem _ hj)))
              simp [this] at hxs

theorem deletejobAux_mem (pid : Int) : ∀ (l l' : List Jobt), deletejobAux pid l = some l' →
    ∀ j ∈ l', j ∈ l ∨ j = clearedJob := by
  intro l
  induction l with
  | nil => intro l' h; simp [deletejobAux] at h
  | cons x xs ih =>
      intro l' h j hj
      by_cases hx : x.pid = pid
      · simp only [deletejobAux, if_pos hx] at h
        cases h
        rcases List.mem_cons.mp hj with h | h
        · exact Or.inr h
        · exact Or.inl (List.mem_cons_of_mem _ h)
      · simp only [deletejobAux, if_neg hx] at h
        cases hxs : deletejobAux pid xs with
        | none => rw [hxs] at h; simp at h
        | some ys =>
            rw [hxs] at h; simp at h
            subst h
            rcases List.mem_cons.mp hj with h | h
            · exact Or.inl (by simp [h])
            · rcases ih ys hxs j h with h2 | h2
              · exact Or.inl (List.mem_cons_of_mem _ h2)
              · exact Or.inr h2

theorem deletejobAux_forall {P : Jobt → Prop} (pid : Int) (l l' : List Jobt)
    (h : deletejobAux pid l = some l') (hall : ∀ j ∈ l, P j) (hc : P clearedJob) :
    ∀ j ∈ l', P j := by
  intro j hj
  rcases deletejobAux_mem pid l l' h j hj with h2 | h2
  · exact hall j h2
  · exact h2 ▸ hc

theorem deletejobAux_pairwise {R : Jobt → Jobt → Prop} (pid : Int)
    (hcf : ∀ j, R clearedJob j) (hcb : ∀ j, R j clearedJob) :
    ∀ (l l' : List Jobt), deletejobAux pid l = some l' → l.Pairwise R → l'.Pairwise R := by
  intro l
  induction l with
  | nil => intro l' h; simp [deletejobAux] at h
  | cons x xs ih =>
      intro l' h hp
      by_cases hx : x.pid = pid
      · simp only [deletejobAux, if_pos hx] at h
        cases h
        exact List.pairwise_cons.mpr ⟨fun j _ => hcf j, (List.pairwise_cons.mp hp).2⟩
      · simp only [deletejobAux, if_neg hx] at h
        cases hxs : deletejobAux pid xs with
        | none => rw [hxs] at h; simp at h
        | some ys =>
            rw [hxs] at h; simp at h
            subst h
            rcases List.pairwise_cons.mp hp with ⟨hx1, hx2⟩
            refine List.pairwise_cons.mpr ⟨?_, ih ys hxs hx2⟩
            intro j hj
            rcases deletejobAux_mem pid xs ys hxs j hj with h2 | h2
            · exact hx1 j h2
            · exact h2 ▸ hcb x

/-! ### The inductive invariant behind the job-id claims

`InvJ s a` records, after a prefix of operations containing `a` calls to
`addjob`: free slots are fully cleared, every stored jid is at most `a`, in-use
jids are pairwise distinct, and — while fewer than `MAXJOBS` adds have happened,
so the `nextjid` wraparound cannot have fired since the last deletion —
`nextjid` strictly dominates every in-use jid and is at most `a + 1`. -/

def InvJ (s : ShellState) (a : Nat) : Prop :=
  (∀ j ∈ s.jobs, j.pid = 0 → j.jid = 0) ∧
  (∀ j ∈ s.jobs, j.jid ≤ (a : Int)) ∧
  distinctJids s.jobs ∧
  (a ≤ 15 → (∀ j ∈ s.jobs, j.pid ≠ 0 → j.jid < s.nextjid) ∧ s.nextjid ≤ (a : Int) + 1)

theorem invJ_init : InvJ initState 0 := by
  refine ⟨?_, ?_, ?_, ?_⟩
  · intro j hj _
    rw [List.eq_of_mem_replicate hj]
    rfl
  · intro j hj
    rw [List.eq_of_mem_replicate hj]
    simp [clearedJob]
  · unfold distinctJids
    exact List.pairwise_replicate.mpr (Or.inr (fun h _ => absurd rfl h))
  · intro _
    refine ⟨?_, by norm_num [initState]⟩
    intro j hj hp
    exact absurd (congrArg Jobt.pid (List.eq_of_mem_replicate hj)) hp

theorem invJ_add (s : ShellState) (a : Nat) (pid st : Int) (cl : String)
    (h : InvJ s a) (ha : a ≤ 15) : InvJ (addjob s pid st cl).2 (a + 1) := by
  obtain ⟨hfree, hbound, hdist, hcond⟩ := h
  obtain ⟨hfresh, hnj⟩ := hcond ha
  have hmono : InvJ s (a + 1) := by
    refine ⟨hfree, fun j hj => le_trans (hbound j hj) (by push_cast; omega), hdist, ?_⟩
    intro h15
    exact ⟨hfresh, by push_cast; omega⟩
  unfold addjob
  by_cases hp : pid < 1
  · simpa [hp] using hmono
  · simp only [if_neg hp]
    cases haux : addjobAux ⟨pid, s.nextjid, st, cl⟩ s.jobs with
    | none => simpa using hmono
    | some l' =>
        simp only
        refine ⟨?_, ?_, ?_, ?_⟩
        · refine addjobAux_forall _ _ _ haux hfree ?_
          intro hzero
          exact absurd hzero (show ¬ pid = 0 by omega)
        · refine addjobAux_forall _ _ _ haux
            (fun j hj => le_trans (hbound j hj) (by push_cast; omega)) ?_
          show s.nextjid ≤ ((a + 1 : Nat) : Int)
          push_cast
          omega
        · refine addjobAux_pairwise _ _ _ haux hdist ?_ ?_
          · intro j hj _ hjp
            exact ne_of_gt (hfresh j hj hjp)
          · intro j hj hjp _
            exact ne_of_lt (hfresh j hj hjp)
        · intro h15
          have hnowrap : ¬ (s.nextjid + 1 > MAXJOBS) := by
            unfold MAXJOBS
            omega
          simp only [if_neg hnowrap]
          constructor
          · refine addjobAux_forall _ _ _ haux ?_ ?_
            · intro j hj hjp
              show j.jid < s.nextjid + 1
              exact lt_trans (hfresh j hj hjp) (by omega)
            · intro _
              show s.nextjid < s.nextjid + 1
              omega
          · show s.nextjid + 1 ≤ ((a + 1 : Nat) : Int) + 1
            push_cast
            omega

theorem invJ_del (s : ShellState) (a : Nat) (pid : Int)
    (h : InvJ s a) : InvJ (deletejob s pid).2 a := by
  obtain ⟨hfree, hbound, hdist, hcond⟩ := h
  unfold deletejob
  by_cases hp : pid < 1
  · exact if_pos hp ▸ ⟨hfree, hbound, hdist, hcond⟩
  · simp only [if_neg hp]
    cases haux : deletejobAux pid s.jobs with
    | none => exact ⟨hfree, hbound, hdist, hcond⟩
    | some l' =>
        simp only
        have hbound' : ∀ j ∈ l', j.jid ≤ (a : Int) :=
          deletejobAux_forall pid _ _ haux hbound (by simp [clearedJob])
        refine ⟨?_, hbound', ?_, ?_⟩
        · exact deletejobAux_forall pid _ _ haux hfree (by simp [clearedJob])
        · exact deletejobAux_pairwise pid
            (fun j hc => absurd rfl hc)
            (fun j _ hc => absurd rfl hc) _ _ haux hdist
        · intro h15
          constructor
          · intro j hj _
            show j.jid < maxjid l' + 1
            exact lt_of_le_of_lt (le_maxjid l' j hj) (by omega)
          · show maxjid l' + 1 ≤ (a : Int) + 1
            have : maxjid l' ≤ (a : Int) :=
              maxjid_le l' _ (by positivity) hbound'
            omega

theorem countAdds_add_cons (pid st : Int) (cl : String) (rest : List JOp) :
    countAdds (JOp.add pid st cl :: rest) = countAdds rest + 1 := by
  simp [countAdds, List.countP_cons]

theorem countAdds_del_cons (pid : Int) (rest : List JOp) :
    countAdds (JOp.del pid :: rest) = countAdds rest := by
  simp [countAdds, List.countP_cons]

theorem invJ_run : ∀ (ops : List JOp) (s : ShellState) (a : Nat), InvJ s a →
    a + countAdds ops ≤ 16 → InvJ (ops.foldl execJOp s) (a + countAdds ops) := by
  intro ops
  induction ops with
  | nil => intro s a h _; simpa [countAdds] using h
  | cons op rest ih =>
      intro s a h hle
      cases op with
      | add pid st cl =>
          rw [countAdds_add_cons] at hle ⊢
          have ha : a ≤ 15 := by omega
          have h' : InvJ (execJOp s (JOp.add pid st cl)) (a + 1) := invJ_add s a pid st cl h ha
          have := ih _ (a + 1) h' (by omega)
          simpa [List.foldl_cons, Nat.add_assoc, Nat.add_comm 1 (countAdds rest)] using this
      | del pid =>
          rw [countAdds_del_cons] at hle ⊢
          exact ih _ a (invJ_del s a pid h) hle

/-! ### Refinement lemmas: the scans as find-first-index-and-set -/

theorem findIdx?_pred_congr {p q : Jobt → Bool} : ∀ (l : List Jobt) (i : Nat),
    (∀ x ∈ l, p x = q x) → List.findIdx? p l i = List.findIdx? q l i := by
  intro l
  induction l with
  | nil => intro i _; rfl
  | cons x xs ih =>
      intro i hpq
      rw [List.findIdx?_cons, List.findIdx?_cons, hpq x (List.mem_cons_self _ _),
        ih (i + 1) (fun y hy => hpq y (List.mem_cons_of_mem _ hy))]

theorem addjobAux_eq_findIdx (nj : Jobt) : ∀ l : List Jobt,
    addjobAux nj l = (List.findIdx? (fun j => j.pid == 0) l).map (fun i => l.set i nj) := by
  intro l
  induction l with
  | nil => rfl
  | cons x xs ih =>
      by_cases hx : x.pid = 0
      · simp [addjobAux, hx, List.findIdx?_cons]
      · rw [List.findIdx?_cons]
        simp only [addjobAux, if_neg hx, beq_iff_eq, hx, if_false, List.findIdx?_succ]
        rw [ih]
        cases List.findIdx? (fun j => j.pid == 0) xs with
        | none => rfl
        | some i => simp [List.set_cons_succ]

theorem deletejobAux_eq_findIdx (pid : Int) : ∀ l : List Jobt,
    deletejobAux pid l =
      (List.findIdx? (fun j => j.pid == pid) l).map (fun i => l.set i clearedJob) := by
  intro l
  induction l with
  | nil => rfl
  | cons x xs ih =>
      by_cases hx : x.pid = pid
      · simp [deletejobAux, hx, List.findIdx?_cons]
      · rw [List.findIdx?_cons]
        simp only [deletejobAux, if_neg hx, beq_iff_eq, hx, if_false, List.findIdx?_succ]
        rw [ih]
        cases List.findIdx? (fun j => j.pid == pid) xs with
        | none => rfl
        | some i => simp [List.set_cons_succ]

theorem maxAux_eq_maxInUseAux : ∀ (l : List Jobt) (m : Int), 0 ≤ m →
    (∀ j ∈ l, j.pid = 0 → j.jid = 0) → maxjidAux m l = maxInUseAux m l := by
  intro l
  induction l with
  | nil => intro m _ _; rfl
  | cons x xs ih =>
      intro m hm hclean
      by_cases hx : x.pid = 0
      · have hjid : x.jid = 0 := hclean x (List.mem_cons_self _ _) hx
        have h1 : ¬ (x.jid > m) := by omega
        have h2 : ¬ (x.pid ≠ 0 ∧ x.jid > m) := fun hc => absurd hx hc.1
        simp only [maxjidAux, maxInUseAux, if_neg h1, if_neg h2]
        exact ih m hm (fun j hj => hclean j (List.mem_cons_of_mem _ hj))
      · have h2 : (x.pid ≠ 0 ∧ x.jid > m) ↔ x.jid > m := by
          constructor
          · exact fun hc => hc.2
          · exact fun hg => ⟨hx, hg⟩
        simp only [maxjidAux, maxInUseAux]
        rw [if_congr h2 rfl rfl]
        by_cases hg : x.jid > m
        · simp only [if_pos hg]
          exact ih _ (by omega) (fun j hj => hclean j (List.mem_cons_of_mem _ hj))
        · simp only [if_neg hg]
          exact ih _ hm (fun j hj => hclean j (List.mem_cons_of_mem _ hj))

theorem maxjid_eq_maxInUseJid (l : List Jobt)
    (hclean : ∀ j ∈ l, j.pid = 0 → j.jid = 0) : maxjid l = maxInUseJid l :=
  maxAux_eq_maxInUseAux l 0 le_rfl hclean

/-! ### Lookup lemmas -/

theorem pid2jid_ne_zero_imp (l : List Jobt) (pid : Int) (h : pid2jid l pid ≠ 0) :
    1 ≤ pid ∧ ∃ j ∈ l, j.pid = pid := by
  unfold pid2jid at h
  by_cases hp : pid < 1
  · rw [if_pos hp] at h
    exact absurd rfl h
  · rw [if_neg hp] at h
    refine ⟨by omega, ?_⟩
    cases hf : l.find? (fun j => j.pid == pid) with
    | none => rw [hf] at h; exact absurd rfl h
    | some j =>
        exact ⟨j, List.mem_of_find?_eq_some hf, by simpa using List.find?_some hf⟩

theorem pid2jid_ne_zero_iff (l : List Jobt) (pid : Int)
    (hwf : ∀ j ∈ l, j.pid ≠ 0 → j.jid ≠ 0) :
    pid2jid l pid ≠ 0 ↔ 1 ≤ pid ∧ ∃ j ∈ l, j.pid = pid := by
  constructor
  · exact pid2jid_ne_zero_imp l pid
  · rintro ⟨hp, j0, hj0, hpid⟩
    unfold pid2jid
    have hnp : ¬ pid < 1 := by omega
    simp only [if_neg hnp]
    cases hf : l.find? (fun j => j.pid == pid) with
    | none =>
        have := List.find?_eq_none.mp hf j0 hj0
        simp [hpid] at this
    | some j =>
        have hjpid : j.pid = pid := by simpa using List.find?_some hf
        exact hwf j (List.mem_of_find?_eq_some hf) (by omega)

theorem deletejobAux_unique_absent (pid : Int) (hpid : pid ≠ 0) :
    ∀ (l l' : List Jobt), l.countP (fun j => j.pid == pid) ≤ 1 →
      deletejobAux pid l = some l' → ∀ j ∈ l', j.pid ≠ pid := by
  intro l
  induction l with
  | nil => intro l' _ h; simp [deletejobAux] at h
  | cons x xs ih =>
      intro l' hcount h j hj
      by_cases hx : x.pid = pid
      · simp only [deletejobAux, if_pos hx] at h
        cases h
        rcases List.mem_cons.mp hj with h1 | h1
        · rw [h1]; simpa [clearedJob, UNDEF] using (Ne.symm hpid)
        · rw [List.countP_cons] at hcount
          simp only [hx, beq_self_eq_true, if_pos] at hcount
          have hzero : xs.countP (fun j => j.pid == pid) = 0 := by omega
          have := List.countP_eq_zero.mp hzero j h1
          simpa using this
      · simp only [deletejobAux, if_neg hx] at h
        cases hxs : deletejobAux pid xs with
        | none => rw [hxs] at h; simp at h
        | some ys =>
            rw [hxs] at h; simp at h
            subst h
            rcases List.mem_cons.mp hj with h1 | h1
            · rw [h1]; exact hx
            · refine ih ys ?_ hxs j h1
              rw [List.countP_cons] at hcount
              omega

/-! ### Counting foreground slots -/

theorem countFG_cons (j : Jobt) (js : List Jobt) :
    countFG (j :: js) = countFG js + (if j.pid ≠ 0 ∧ j.state = FG then 1 else 0) := by
  unfold countFG
  rw [List.countP_cons]
  congr 1
  by_cases h1 : j.pid = 0
  · simp [h1]
  · by_cases h2 : j.state = FG
    · simp [h1, h2]
    · simp [h1, h2]

theorem addjobAux_countFG (nj : Jobt) : ∀ (l l' : List Jobt), addjobAux nj l = some l' →
    countFG l' ≤ countFG l + (if nj.pid ≠ 0 ∧ nj.state = FG then 1 else 0) := by
  intro l
  induction l with
  | nil => intro l' h; simp [addjobAux] at h
  | cons x xs ih =>
      intro l' h
      by_cases hx : x.pid = 0
      · simp only [addjobAux, if_pos hx] at h
        cases h
        rw [countFG_cons, countFG_cons]
        omega
      · simp only [addjobAux, if_neg hx] at h
        cases hxs : addjobAux nj xs with
        | none => rw [hxs] at h; simp at h
        | some ys =>
            rw [hxs] at h; simp at h
            subst h
            rw [countFG_cons, countFG_cons]
            have := ih ys hxs
            omega

theorem deletejobAux_countFG (pid : Int) : ∀ (l l' : List Jobt),
    deletejobAux pid l = some l' → countFG l' ≤ countFG l := by
  intro l
  induction l with
  | nil => intro l' h; simp [deletejobAux] at h
  | cons x xs ih =>
      intro l' h
      by_cases hx : x.pid = pid
      · simp only [deletejobAux, if_pos hx] at h
        cases h
        rw [countFG_cons, countFG_cons]
        have : ¬ (clearedJob.pid ≠ 0 ∧ clearedJob.state = FG) := by
          intro hc; exact hc.1 rfl
        simp only [if_neg this]
        omega
      · simp only [deletejobAux, if_neg hx] at h
        cases hxs : deletejobAux pid xs with
        | none => rw [hxs] at h; simp at h
        | some ys =>
            rw [hxs] at h; simp at h
            subst h
            rw [countFG_cons, countFG_cons]
            have := ih ys hxs
            omega

theorem setStateFirst_countFG_le (q : Jobt → Bool) (st : Int) (hst : st ≠ FG) :
    ∀ l : List Jobt, countFG (setStateFirst q st l) ≤ countFG l := by
  intro l
  induction l with
  | nil => simp [setStateFirst]
  | cons x xs ih =>
      by_cases hx : q x
      · simp only [setStateFirst, if_pos hx]
        rw [countFG_cons, countFG_cons]
        have : ¬ (({ x with state := st } : Jobt).pid ≠ 0 ∧
            ({ x with state := st } : Jobt).state = FG) := by
          intro hc; exact hst hc.2
        rw [if_neg this]
        omega
      · simp only [setStateFirst, if_neg hx]
        rw [countFG_cons, countFG_cons]
        omega

theorem setStateFirst_countFG_le_succ (q : Jobt → Bool) (st : Int) :
    ∀ l : List Jobt, countFG (setStateFirst q st l) ≤ countFG l + 1 := by
  intro l
  induction l with
  | nil => simp [setStateFirst]
  | cons x xs ih =>
      by_cases hx : q x
      · simp only [setStateFirst, if_pos hx]
        rw [countFG_cons, countFG_cons]
        split <;> split <;> omega
      · simp only [setStateFirst, if_neg hx]
        rw [countFG_cons, countFG_cons]
        omega

/-! ### Clean free slots and the absence of foreground jobs -/

/-- Every free slot (pid 0) is fully reset: jid 0 and state `UNDEF`.  This is the
data-model invariant "a slot with `process_id == 0` is free and must have all
other fields reset". -/
def freeReset (l : List Jobt) : Prop :=
  ∀ j ∈ l, j.pid = 0 → j.jid = 0 ∧ j.state = UNDEF

instance (l : List Jobt) : Decidable (freeReset l) := by
  unfold freeReset; infer_instance

theorem countFG_eq_zero_of_fgpid (l : List Jobt) (hc : ∀ j ∈ l, j.pid = 0 → j.state = UNDEF) :
    fgpid l = 0 → countFG l = 0 := by
  induction l with
  | nil => intro _; rfl
  | cons x xs ih =>
      intro h
      by_cases hx : x.state = FG
      · exfalso
        have hfind : fgpid (x :: xs) = x.pid := by
          unfold fgpid
          rw [List.find?_cons_of_pos _ (by simpa using hx)]
        have hxpid : x.pid = 0 := by rw [← hfind, h]
        have := hc x (List.mem_cons_self _ _) hxpid
        rw [hx] at this
        exact absurd this (by decide)
      · have hfind : fgpid (x :: xs) = fgpid xs := by
          unfold fgpid
          rw [List.find?_cons_of_neg _ (by simpa using hx)]
        rw [countFG_cons]
        have := ih (fun j hj => hc j (List.mem_cons_of_mem _ hj)) (hfind ▸ h)
        simp only [if_neg (fun hcc : _ ∧ _ => hx hcc.2)]
        omega

theorem fgpid_eq_zero_of_noFG (l : List Jobt) (h : ∀ j ∈ l, j.state ≠ FG) :
    fgpid l = 0 := by
  unfold fgpid
  rw [List.find?_eq_none.mpr (fun j hj => by simpa using h j hj)]

theorem noFG_of_fgpid (l : List Jobt) (hc : ∀ j ∈ l, j.pid = 0 → j.state = UNDEF)
    (h : fgpid l = 0) : ∀ j ∈ l, j.state ≠ FG := by
  induction l with
  | nil => intro j hj; simp at hj
  | cons x xs ih =>
      intro j hj
      by_cases hx : x.state = FG
      · exfalso
        have hfind : fgpid (x :: xs) = x.pid := by
          unfold fgpid
          rw [List.find?_cons_of_pos _ (by simpa using hx)]
        have hxpid : x.pid = 0 := by rw [← hfind, h]
        have := hc x (List.mem_cons_self _ _) hxpid
        rw [hx] at this
        exact absurd this (by decide)
      · have hfind : fgpid (x :: xs) = fgpid xs := by
          unfold fgpid
          rw [List.find?_cons_of_neg _ (by simpa using hx)]
        rcases List.mem_cons.mp hj with h1 | h1
        · rw [h1]; exact hx
        · exact ih (fun y hy => hc y (List.mem_cons_of_mem _ hy)) (hfind ▸ h) j h1

theorem setStateFirst_noFG (q : Jobt → Bool) (st : Int) (hst : st ≠ FG) :
    ∀ l : List Jobt, (∀ j ∈ l, j.state ≠ FG) →
      ∀ j ∈ setStateFirst q st l, j.state ≠ FG := by
  intro l
  induction l with
  | nil => intro _ j hj; simp [setStateFirst] at hj
  | cons x xs ih =>
      intro h j hj
      by_cases hx : q x
      · simp only [setStateFirst, if_pos hx] at hj
        rcases List.mem_cons.mp hj with h1 | h1
        · rw [h1]; exact hst
        · exact h j (List.mem_cons_of_mem _ h1)
      · simp only [setStateFirst, if_neg hx] at hj
        rcases List.mem_cons.mp hj with h1 | h1
        · rw [h1]; exact h x (List.mem_cons_self _ _)
        · exact ih (fun y hy => h y (List.mem_cons_of_mem _ hy)) j h1

theorem waitfgCond_eq_false (s : ShellState) (pid : Int) (h : fgpid s.jobs = 0) :
    waitfgCond s pid = false := by
  unfold waitfgCond
  by_cases hp : pid = 0
  · subst hp
    have : pid2jid s.jobs 0 = 0 := by unfold pid2jid; simp
    simp [this]
  · rw [h]
    simp [hp]

theorem setStateFirst_freeReset (q : Jobt → Bool) (st : Int) (l : List Jobt)
    (hq : ∀ j ∈ l, q j = true → j.pid ≠ 0) (h : freeReset l) :
    freeReset (setStateFirst q st l) := by
  induction l with
  | nil => intro j hj; simp [setStateFirst] at hj
  | cons x xs ih =>
      intro j hj
      by_cases hx : q x
      · simp only [setStateFirst, if_pos hx] at hj
        rcases List.mem_cons.mp hj with h1 | h1
        · intro hp
          rw [h1] at hp
          exact absurd hp (hq x (List.mem_cons_self _ _) hx)
        · exact h j (List.mem_cons_of_mem _ h1)
      · simp only [setStateFirst, if_neg hx] at hj
        rcases List.mem_cons.mp hj with h1 | h1
        · exact h1 ▸ h x (List.mem_cons_self _ _)
        · exact ih (fun y hy hqy => hq y (List.mem_cons_of_mem _ hy) hqy)
            (fun y hy => h y (List.mem_cons_of_mem _ hy)) j h1

/-! ### The tokenizer on quote-free input is whitespace splitting -/

theorem toksRun_eq_wsRun : ∀ m : List Char, quoteChar ∉ m →
    (toksRun PMode.skipSp (m ++ [' ']) = wsRun none m ∧
     ∀ acc, toksRun (PMode.plain acc) (m ++ [' ']) = wsRun (some acc) m) := by
  intro m
  induction m with
  | nil =>
      intro _
      refine ⟨by simp [toksRun, wsRun], fun acc => by simp [toksRun, wsRun]⟩
  | cons c cs ih =>
      intro hq
      have hq2 : quoteChar ∉ cs := fun h => hq (List.mem_cons_of_mem _ h)
      have hqc : ¬ c = quoteChar := fun h => hq (by rw [h]; exact List.mem_cons_self _ _)
      obtain ⟨ihs, ihp⟩ := ih hq2
      by_cases hsp : c = ' '
      · subst hsp
        constructor
        · simpa [toksRun, wsRun] using ihs
        · intro acc
          simp [toksRun, wsRun, ihs]
      · constructor
        · simp only [List.cons_append, toksRun, wsRun, if_neg hsp, if_neg hqc]
          exact ihp [c]
        · intro acc
          simp only [List.cons_append, toksRun, wsRun, if_neg hsp]
          exact ihp (c :: acc)

theorem toks_eq_wsToks (cmdline : String)
    (hnl : cmdline.data.getLast? = some '\n') (hq : quoteChar ∉ cmdline.data) :
    toks (replaceLastSpace cmdline.data) = wsToks cmdline.data.dropLast := by
  cases hd : cmdline.data with
  | nil => rw [hd] at hnl; simp at hnl
  | cons c cs =>
      rw [hd] at hq
      have h1 : replaceLastSpace (c :: cs) = (c :: cs).dropLast ++ [' '] := by
        simp [replaceLastSpace]
      have hq2 : quoteChar ∉ (c :: cs).dropLast :=
        fun h => hq ((List.dropLast_sublist _).subset h)
      rw [h1]
      exact (toksRun_eq_wsRun _ hq2).1

/-! ### The reachability invariant for foreground uniqueness -/

theorem doBgfg_some (s : ShellState) (isBg : Bool) (jid : Int)
    (s' : ShellState) (pidv : Int) (out : List String)
    (h : doBgfg s isBg jid = some (s', pidv, out)) :
    s'.jobs = setStateFirst (fun j => j.jid == jid) (if isBg then BG else FG) s.jobs ∧
      s'.nextjid = s.nextjid ∧ ¬ jid < 1 := by
  unfold doBgfg getjobjid at h
  by_cases hj : jid < 1
  · rw [if_pos hj] at h
    exact absurd h (by simp)
  · rw [if_neg hj] at h
    cases hg : s.jobs.find? (fun j => j.jid == jid) with
    | none => rw [hg] at h; exact absurd h (by simp)
    | some job =>
        rw [hg] at h
        dsimp only at h
        cases isBg with
        | true =>
            rw [if_pos rfl] at h
            simp only [Option.some.injEq, Prod.mk.injEq] at h
            have hX := h.1.symm
            subst hX
            exact ⟨rfl, rfl, hj⟩
        | false =>
            rw [if_neg Bool.false_ne_true] at h
            simp only [Option.some.injEq, Prod.mk.injEq] at h
            have hX := h.1.symm
            subst hX
            exact ⟨rfl, rfl, hj⟩

theorem jidMatch_pid_ne_zero (s : ShellState) (jid : Int) (hfr : freeReset s.jobs)
    (hj : ¬ jid < 1) : ∀ j ∈ s.jobs, (j.jid == jid) = true → j.pid ≠ 0 := by
  intro j hjm hjj hp
  have := (hfr j hjm hp).1
  rw [this] at hjj
  rw [beq_iff_eq] at hjj
  omega

theorem reachable_inv8 (s : ShellState) (h : Reachable s) :
    freeReset s.jobs ∧ countFG s.jobs ≤ 1 := by
  induction h with
  | init => exact ⟨by decide, by decide⟩
  | spawnBG s pid cl hs ih =>
      obtain ⟨hfr, hcnt⟩ := ih
      show freeReset (addjob s pid BG cl).2.jobs ∧ countFG (addjob s pid BG cl).2.jobs ≤ 1
      unfold addjob
      by_cases hp : pid < 1
      · rw [if_pos hp]; exact ⟨hfr, hcnt⟩
      · rw [if_neg hp]
        cases haux : addjobAux ⟨pid, s.nextjid, BG, cl⟩ s.jobs with
        | none => exact ⟨hfr, hcnt⟩
        | some l' =>
            constructor
            · show freeReset l'
              exact addjobAux_forall _ _ _ haux hfr
                (fun hz => absurd hz (show ¬ pid = 0 by omega))
            · show countFG l' ≤ 1
              have hcc := addjobAux_countFG _ _ _ haux
              rw [if_neg (show ¬ ((⟨pid, s.nextjid, BG, cl⟩ : Jobt).pid ≠ 0 ∧
                  (⟨pid, s.nextjid, BG, cl⟩ : Jobt).state = FG) from
                fun hc => absurd hc.2 (show ¬ (BG = FG) by decide))] at hcc
              omega
  | spawnFG s pid cl hs hguard ih =>
      obtain ⟨hfr, hcnt⟩ := ih
      have hzero : countFG s.jobs = 0 :=
        countFG_eq_zero_of_fgpid s.jobs (fun j hj hp => (hfr j hj hp).2) hguard
      show freeReset (addjob s pid FG cl).2.jobs ∧ countFG (addjob s pid FG cl).2.jobs ≤ 1
      unfold addjob
      by_cases hp : pid < 1
      · rw [if_pos hp]; exact ⟨hfr, hcnt⟩
      · rw [if_neg hp]
        cases haux : addjobAux ⟨pid, s.nextjid, FG, cl⟩ s.jobs with
        | none => exact ⟨hfr, hcnt⟩
        | some l' =>
            constructor
            · show freeReset l'
              exact addjobAux_forall _ _ _ haux hfr
                (fun hz => absurd hz (show ¬ pid = 0 by omega))
            · show countFG l' ≤ 1
              have hcc := addjobAux_countFG _ _ _ haux
              have hle : (if (⟨pid, s.nextjid, FG, cl⟩ : Jobt).pid ≠ 0 ∧
                  (⟨pid, s.nextjid, FG, cl⟩ : Jobt).state = FG then 1 else 0) ≤ 1 := by
                split <;> omega
              omega
  | cmdFg s jid hs hguard ih =>
      obtain ⟨hfr, hcnt⟩ := ih
      have hzero : countFG s.jobs = 0 :=
        countFG_eq_zero_of_fgpid s.jobs (fun j hj hp => (hfr j hj hp).2) hguard
      simp only [stepEv]
      cases hdb : doBgfg s false jid with
      | none => exact ⟨hfr, hcnt⟩
      | some trip =>
          obtain ⟨s', pidv, out⟩ := trip
          obtain ⟨h1, _, hj⟩ := doBgfg_some s false jid s' pidv out hdb
          show freeReset s'.jobs ∧ countFG s'.jobs ≤ 1
          rw [h1]
          refine ⟨setStateFirst_freeReset _ _ _ (jidMatch_pid_ne_zero s jid hfr hj) hfr, ?_⟩
          have := setStateFirst_countFG_le_succ (fun j => j.jid == jid)
            (if false then BG else FG) s.jobs
          omega
  | cmdBg s jid hs ih =>
      obtain ⟨hfr, hcnt⟩ := ih
      simp only [stepEv]
      cases hdb : doBgfg s true jid with
      | none => exact ⟨hfr, hcnt⟩
      | some trip =>
          obtain ⟨s', pidv, out⟩ := trip
          obtain ⟨h1, _, hj⟩ := doBgfg_some s true jid s' pidv out hdb
          show freeReset s'.jobs ∧ countFG s'.jobs ≤ 1
          rw [h1]
          refine ⟨setStateFirst_freeReset _ _ _ (jidMatch_pid_ne_zero s jid hfr hj) hfr, ?_⟩
          have := setStateFirst_countFG_le (fun j => j.jid == jid)
            (if true then BG else FG) (by decide) s.jobs
          omega
  | tstp s hs ih =>
      obtain ⟨hfr, hcnt⟩ := ih
      simp only [stepEv]
      unfold sigtstpStep
      by_cases hp : fgpid s.jobs = 0
      · rw [if_pos hp]; exact ⟨hfr, hcnt⟩
      · rw [if_neg hp]
        have hq : ∀ j ∈ s.jobs, (j.pid == fgpid s.jobs) = true → j.pid ≠ 0 := by
          intro j _ hjj
          rw [beq_iff_eq] at hjj
          rw [hjj]
          exact hp
        constructor
        · show freeReset (setStateFirst (fun j => j.pid == fgpid s.jobs) ST s.jobs)
          exact setStateFirst_freeReset _ _ _ hq hfr
        · show countFG (setStateFirst (fun j => j.pid == fgpid s.jobs) ST s.jobs) ≤ 1
          have := setStateFirst_countFG_le (fun j => j.pid == fgpid s.jobs) ST
            (by decide) s.jobs
          omega
  | reap s pid w hs ih =>
      obtain ⟨hfr, hcnt⟩ := ih
      simp only [stepEv, sigchldStep]
      by_cases hw : (wifexited w || wifsignaled w) = true
      · rw [if_pos hw]
        unfold deletejob
        by_cases hp : pid < 1
        · rw [if_pos hp]; exact ⟨hfr, hcnt⟩
        · rw [if_neg hp]
          cases haux : deletejobAux pid s.jobs with
          | none => exact ⟨hfr, hcnt⟩
          | some l' =>
              constructor
              · show freeReset l'
                exact deletejobAux_forall _ _ _ haux hfr (fun _ => ⟨rfl, rfl⟩)
              · show countFG l' ≤ 1
                have := deletejobAux_countFG pid _ _ haux
                omega
      · rw [if_neg hw]
        exact ⟨hfr, hcnt⟩

/-! ### The claims -/

/-- C1 (amended): for every sequence of `addjob`/`deletejob` operations starting
from the initial empty job table that contains at most `MAXJOBS` (16) `addjob`
operations, at no point do two in-use slots (slots with `pid != 0`) hold the same
job id.  (The bound is forced: with 17 adds the `nextjid` wraparound can assign a
duplicate id, see the counterexample.) -/
theorem claim_C1 (ops : List JOp) (h : countAdds ops ≤ 16) :
    distinctJids (runJOps ops).jobs := by
  have h2 := invJ_run ops initState 0 invJ_init (by omega)
  exact h2.2.2.1

theorem claim_C1_witness : distinctJids (runJOps [JOp.add 5 BG "x\n"]).jobs :=
  claim_C1 [JOp.add 5 BG "x\n"] (by decide)

/-- C1 fails as stated: after 17 adds and one delete (`dupJidOps`), two in-use
slots hold job id 1 — the job added with pid 1 and the job added with pid 17
after `nextjid` wrapped back to 1. -/
theorem claim_C1_counterexample :
    ¬ distinctJids (runJOps dupJidOps).jobs ∧
      (runJOps dupJidOps).jobs.countP (fun j => j.jid == 1 && j.pid != 0) = 2 := by
  decide

/-- C2 (amended): for every sequence of `addjob`/`deletejob` operations starting
from the initial empty job table that contains at most `MAXJOBS - 1` (15) `addjob`
operations, after the sequence completes `nextjid` is strictly greater than every
job id in use (every intermediate state is the final state of a shorter such
sequence, so this covers each completed operation).  The bound is forced: after
the 16th add `nextjid` wraps to 1 while jobs with ids 1..16 are in use. -/
theorem claim_C2 (ops : List JOp) (h : countAdds ops ≤ 15) :
    ∀ j ∈ (runJOps ops).jobs, j.pid ≠ 0 → j.jid < (runJOps ops).nextjid := by
  have h2 := invJ_run ops initState 0 invJ_init (by omega)
  exact (h2.2.2.2 (by omega)).1

theorem claim_C2_witness :
    (⟨6, 1, BG, "y\n"⟩ : Jobt).jid < (runJOps [JOp.add 6 BG "y\n"]).nextjid :=
  claim_C2 [JOp.add 6 BG "y\n"] (by decide) ⟨6, 1, BG, "y\n"⟩ (by decide) (by decide)

/-- C2 fails as stated: after 16 adds (`wrapOps`) the slot holding pid 16 is in
use with job id 16, but `nextjid` has wrapped to 1, which is not greater. -/
theorem claim_C2_counterexample :
    (⟨16, 16, BG, "c\n"⟩ : Jobt) ∈ (runJOps wrapOps).jobs ∧
      (⟨16, 16, BG, "c\n"⟩ : Jobt).pid ≠ 0 ∧
      ¬ ((⟨16, 16, BG, "c\n"⟩ : Jobt).jid < (runJOps wrapOps).nextjid) := by
  decide

/-- C5: `addjob(pid, state, cmdline)` behaves exactly as the claim-side
specification `addjobClaim`: it fails, leaving every entry unchanged, exactly
when `pid <= 0` or no slot has `pid == 0`; otherwise it claims the lowest-indexed
free slot, stores pid/state/cmdline there with the current `nextjid` as the new
job id, and advances `nextjid` by one, wrapping back to 1 if it would exceed the
table capacity. -/
theorem claim_C5 (s : ShellState) (pid state : Int) (cmdline : String) :
    addjob s pid state cmdline = addjobClaim s pid state cmdline := by
  unfold addjob addjobClaim
  by_cases hp : pid < 1
  · rw [if_pos hp, if_pos (show pid ≤ 0 by omega)]
  · rw [if_neg hp, if_neg (show ¬ pid ≤ 0 by omega)]
    rw [addjobAux_eq_findIdx]
    cases List.findIdx? (fun j => j.pid == 0) s.jobs with
    | none => rfl
    | some i => rfl

/-- C6: on any table state satisfying the data-model invariants (pids are
nonnegative, free slots have jid 0), `deletejob(pid)` behaves exactly as the
claim-side specification `deletejobClaim`: it fails, leaving table and `nextjid`
unchanged, exactly when no in-use slot has that pid (in particular for every
`pid <= 0`); otherwise it resets the matching slot completely and sets `nextjid`
to one greater than the maximum job id still in use. -/
theorem claim_C6 (s : ShellState) (pid : Int)
    (hpos : ∀ j ∈ s.jobs, 0 ≤ j.pid)
    (hclean : ∀ j ∈ s.jobs, j.pid = 0 → j.jid = 0) :
    deletejob s pid = deletejobClaim s pid := by
  unfold deletejob deletejobClaim
  by_cases hp : pid < 1
  · rw [if_pos hp]
    have hnone : List.findIdx? (fun j => j.pid == pid && j.pid != 0) s.jobs = none := by
      rw [List.findIdx?_eq_none_iff]
      intro j hj
      by_cases he : j.pid = pid
      · have h0 := hpos j hj
        have hz : j.pid = 0 := by omega
        simp [hz]
      · simp [he]
    rw [hnone]
  · rw [if_neg hp]
    have hpred : ∀ j ∈ s.jobs, (j.pid == pid && j.pid != 0) = (j.pid == pid) := by
      intro j _
      by_cases he : j.pid = pid
      · simp only [he, beq_self_eq_true, Bool.true_and]
        rw [bne_iff_ne]
        omega
      · simp [he]
    rw [findIdx?_pred_congr s.jobs 0 hpred]
    rw [deletejobAux_eq_findIdx]
    cases List.findIdx? (fun j => j.pid == pid) s.jobs with
    | none => rfl
    | some i =>
        simp only [Option.map_some']
        have hclean' : ∀ j ∈ s.jobs.set i clearedJob, j.pid = 0 → j.jid = 0 := by
          intro j hj
          rcases List.mem_or_eq_of_mem_set hj with h1 | h1
          · exact hclean j h1
          · intro _; rw [h1]; rfl
        rw [maxjid_eq_maxInUseJid _ hclean']

theorem claim_C6_witness : deletejob oneBgState 7 = deletejobClaim oneBgState 7 :=
  claim_C6 oneBgState 7 (by decide) (by decide)

/-- C7: on any table state whose in-use slots carry a nonzero job id (the
data-model invariant), the guard of `waitfg`'s suspension loop is true exactly
when the process id is still present in the table and is the table's designated
foreground process id (`fgpid`); equivalently, `waitfg` returns as soon as the
pid is no longer in the table or the foreground job is no longer that pid. -/
theorem claim_C7 (s : ShellState) (pid : Int)
    (hwf : ∀ j ∈ s.jobs, j.pid ≠ 0 → j.jid ≠ 0) :
    waitfgCond s pid = true ↔
      ((1 ≤ pid ∧ ∃ j ∈ s.jobs, j.pid = pid) ∧ fgpid s.jobs = pid) := by
  unfold waitfgCond
  rw [Bool.and_eq_true, bne_iff_ne, beq_iff_eq]
  rw [pid2jid_ne_zero_iff s.jobs pid hwf]
  constructor
  · rintro ⟨h1, h2⟩; exact ⟨h1, h2.symm⟩
  · rintro ⟨h1, h2⟩; exact ⟨h1, h2.symm⟩

theorem claim_C7_witness : waitfgCond oneFgState 7 = true :=
  (claim_C7 oneFgState 7 (by decide)).mpr (by decide)

/-- C8: in every table state reachable by the shell's operations — spawn
registration in `eval`, `fg`/`bg` transitions in `do_bgfg`, stop marking in
`sigtstp_handler`, deletion in `sigchld_handler` — at most one in-use slot has
state `FG`.  Foreground-creating events (`spawnFG`, `cmdFg`) carry the main-loop
convention `fgpid(jobs) == 0` enforced by the foreground wait. -/
theorem claim_C8 (s : ShellState) (h : Reachable s) : countFG s.jobs ≤ 1 :=
  (reachable_inv8 s h).2

theorem claim_C8_witness :
    countFG (stepEv initState (ShellEvent.spawn 5 false "a\n")).jobs ≤ 1 :=
  claim_C8 _ (Reachable.spawnFG initState 5 "a\n" Reachable.init (by decide))

/-- C3 (amended): for every child pid the child-status handler reaps that is
present in the job table (and held by a single slot): on a stopped-by-signal
status the handler emits `Job [jid] (pid) stopped by signal N` and leaves the
job table completely unchanged — in particular it does not set the job's state
to `ST`; stops are only marked by the SIGTSTP handler.  If the child exited
normally or was killed by a signal, the handler removes the job from the table. -/
theorem claim_C3 (s : ShellState) (pid : Int)
    (hp : pid2jid s.jobs pid ≠ 0)
    (hu : s.jobs.countP (fun j => j.pid == pid) ≤ 1) :
    (∀ n, sigchldStep s pid (WStatus.stopped n) =
      (s, [stopMsg (pid2jid s.jobs pid) pid n])) ∧
    (∀ code, ∀ j ∈ (sigchldStep s pid (WStatus.exited code)).1.jobs, j.pid ≠ pid) ∧
    (∀ n, ∀ j ∈ (sigchldStep s pid (WStatus.signaled n)).1.jobs, j.pid ≠ pid) := by
  obtain ⟨hp1, j0, hj0, hj0p⟩ := pid2jid_ne_zero_imp s.jobs pid hp
  have hdel : ∀ j ∈ (deletejob s pid).2.jobs, j.pid ≠ pid := by
    unfold deletejob
    rw [if_neg (show ¬ pid < 1 by omega)]
    cases haux : deletejobAux pid s.jobs with
    | none =>
        exact absurd hj0p ((deletejobAux_none_iff pid s.jobs).mp haux j0 hj0)
    | some l' =>
        intro j hj
        exact deletejobAux_unique_absent pid (by omega) s.jobs l' hu haux j hj
  refine ⟨fun n => rfl, fun code j hj => hdel j hj, fun n j hj => hdel j hj⟩

theorem claim_C3_witness :
    sigchldStep oneFgState 7 (WStatus.stopped 20) = (oneFgState, [stopMsg 1 7 20]) := by
  have h := (claim_C3 oneFgState 7 (by decide) (by decide)).1 20
  rw [show pid2jid oneFgState.jobs 7 = 1 from by decide] at h
  exact h

/-- C3 fails as stated: reaping pid 7 (a foreground job present in the table)
with a stopped-by-signal status leaves that job's state at `FG`; the handler
does not set it to `ST` as the claim requires. -/
theorem claim_C3_counterexample :
    ((sigchldStep oneFgState 7 (WStatus.stopped 20)).1.jobs.find?
      (fun j => j.pid == 7)).map Jobt.state = some FG ∧ FG ≠ ST := by decide

/-- C4: the code, not the claim, is at fault.  `getjobjid` returns `NULL` for an
unknown job id, and `do_bgfg` dereferences the result (`*pid = job -> pid`)
without any check, so `fg %1` with no job 1 crashes the shell instead of
reporting a recoverable error; a missing jobspec argument likewise reaches
`sscanf(NULL, ...)`.  The model maps these undefined outcomes to `none`. -/
theorem claim_C4_crash :
    getjobjid initState.jobs 1 = none ∧
      evalModel 0 0 initState "fg %1\n" = none ∧
      evalModel 0 0 initState "fg\n" = none := by decide

/-- C10 (amended): for every newline-terminated input line that contains no
single-quote character, `parseline` reports a background job exactly when the
line has no whitespace-delimited tokens at all or when the first character of
the last whitespace-delimited token is the ampersand; and in the latter case the
entire final token is removed from the returned argument vector.  (The
restriction to quote-free lines is forced: a single-quoted final token whose
quoted text starts with the ampersand also triggers background, see the
counterexample.) -/
theorem claim_C10 (cmdline : String)
    (hnl : cmdline.data.getLast? = some '\n') (hq : quoteChar ∉ cmdline.data) :
    (parseline cmdline).2 = claimBg cmdline ∧
    (∀ t, (wsToks cmdline.data.dropLast).getLast? = some t → t.head? = some '&' →
      (parseline cmdline).1 =
        ((wsToks cmdline.data.dropLast).dropLast).map (fun l => String.mk l)) := by
  have hbridge := toks_eq_wsToks cmdline hnl hq
  have hpe : parseline cmdline =
      (match (wsToks cmdline.data.dropLast).getLast? with
       | none => (([] : List String), true)
       | some t =>
           if t.head? = some '&'
           then (((wsToks cmdline.data.dropLast).dropLast).map (fun l => String.mk l), true)
           else ((wsToks cmdline.data.dropLast).map (fun l => String.mk l), false)) := by
    unfold parseline
    rw [hbridge]
  have hcb : claimBg cmdline =
      (match (wsToks cmdline.data.dropLast).getLast? with
       | none => true
       | some t => t.head? == some '&') := rfl
  rw [hpe, hcb]
  cases hlast : (wsToks cmdline.data.dropLast).getLast? with
  | none =>
      refine ⟨rfl, fun t ht => absurd ht (by simp)⟩
  | some t0 =>
      dsimp only
      by_cases hamp : t0.head? = some '&'
      · rw [if_pos hamp]
        refine ⟨?_, ?_⟩
        · show true = (t0.head? == some '&')
          rw [hamp]
          rfl
        · intro t ht _
          rfl
      · rw [if_neg hamp]
        refine ⟨?_, ?_⟩
        · show false = (t0.head? == some '&')
          symm
          rw [beq_eq_false_iff_ne]
          exact hamp
        · intro t ht hhead
          injection ht with ht2
          rw [← ht2] at hhead
          exact absurd hhead hamp

theorem claim_C10_witness :
    (parseline "echo hi &\n").2 = claimBg "echo hi &\n" :=
  (claim_C10 "echo hi &\n" (by decide) (by decide)).1

/-- C10 fails as stated: on the line consisting of the single-quoted token
whose text is `&x`, the last whitespace-delimited token starts with a quote, not
the ampersand, so the claim says foreground; but `parseline` strips the quotes
first and reports a background job. -/
theorem claim_C10_counterexample :
    (parseline quotedAmpLine).2 = true ∧ claimBg quotedAmpLine = false := by decide

/-- C9 (amended): from a main-loop state (no foreground job, free slots reset),
for every command line whose first argument is a builtin name, `eval` executes
the builtin without forking a child; the `quit`, `jobs` and `bg` builtins do not
block in the foreground wait, but `fg` does block, handing the resumed job the
foreground and waiting on it (the original claim's "builtins never block" fails
for `fg`, see the counterexample). -/
theorem claim_C9 (s : ShellState) (junk forked : Int) (cmdline : String)
    (hfg : fgpid s.jobs = 0) (hfr : freeReset s.jobs) :
    ∀ r, evalModel junk forked s cmdline = some r →
      (((parseline cmdline).1.head? = some "quit" ∨
        (parseline cmdline).1.head? = some "jobs" ∨
        (parseline cmdline).1.head? = some "fg" ∨
        (parseline cmdline).1.head? = some "bg") →
        r.spawned = false) ∧
      (((parseline cmdline).1.head? = some "quit" ∨
        (parseline cmdline).1.head? = some "jobs" ∨
        (parseline cmdline).1.head? = some "bg") →
        r.waits = false) := by
  intro r hr
  unfold evalModel at hr
  rcases hpl : parseline cmdline with ⟨argv, bgF⟩
  rw [hpl] at hr
  cases argv with
  | nil => exact absurd hr (by simp)
  | cons a0 rest =>
      dsimp only at hr ⊢
      simp only [List.head?_cons, Option.some.injEq]
      by_cases hquit : a0 = "quit"
      · rw [if_pos hquit] at hr
        injection hr with hr2
        subst hr2
        exact ⟨fun _ => rfl, fun _ => rfl⟩
      · rw [if_neg hquit] at hr
        by_cases hjobs : a0 = "jobs"
        · rw [if_pos hjobs] at hr
          injection hr with hr2
          subst hr2
          refine ⟨fun _ => rfl, fun _ => ?_⟩
          show waitfgCond s junk = false
          exact waitfgCond_eq_false s junk hfg
        · rw [if_neg hjobs] at hr
          by_cases hfb : a0 = "fg" ∨ a0 = "bg"
          · rw [if_pos hfb] at hr
            cases hhd : rest.head? with
            | none => rw [hhd] at hr; exact absurd hr (by simp)
            | some a1 =>
                rw [hhd] at hr
                dsimp only at hr
                cases hps : parseJobspec a1 with
                | none => rw [hps] at hr; exact absurd hr (by simp)
                | some jid =>
                    rw [hps] at hr
                    dsimp only at hr
                    cases hdb : doBgfg s (a0 == "bg") jid with
                    | none => rw [hdb] at hr; exact absurd hr (by simp)
                    | some trip =>
                        obtain ⟨s', pidv, out⟩ := trip
                        rw [hdb] at hr
                        dsimp only at hr
                        injection hr with hr2
                        subst hr2
                        refine ⟨fun _ => rfl, ?_⟩
                        intro hmem
                        have hbg : a0 = "bg" := by
                          rcases hmem with h | h | h
                          · exact absurd h hquit
                          · exact absurd h hjobs
                          · exact h
                        show waitfgCond s' pidv = false
                        have hbeq : (a0 == "bg") = true := by
                          rw [hbg]
                          rfl
                        rw [hbeq] at hdb
                        obtain ⟨h1, _, _⟩ := doBgfg_some s true jid s' pidv out hdb
                        have h1b : s'.jobs =
                            setStateFirst (fun j => j.jid == jid) BG s.jobs := by
                          simpa using h1
                        apply waitfgCond_eq_false
                        rw [h1b]
                        apply fgpid_eq_zero_of_noFG
                        have hnofg :=
                          noFG_of_fgpid s.jobs (fun j hjm hp => (hfr j hjm hp).2) hfg
                        exact setStateFirst_noFG (fun j => j.jid == jid) BG
                          (by decide) s.jobs hnofg
          · rw [if_neg hfb] at hr
            injection hr with hr2
            subst hr2
            refine ⟨fun hmem => ?_, fun hmem => ?_⟩
            · exfalso
              rcases hmem with h | h | h | h
              · exact hquit h
              · exact hjobs h
              · exact hfb (Or.inl h)
              · exact hfb (Or.inr h)
            · exfalso
              rcases hmem with h | h | h
              · exact hquit h
              · exact hjobs h
              · exact hfb (Or.inr h)

theorem claim_C9_witness : (⟨false, false, oneBgState, false⟩ : EvalOut).waits = false :=
  (claim_C9 oneBgState 3 0 "jobs\n" (by decide) (by decide)
    ⟨false, false, oneBgState, false⟩ (by decide)).2 (Or.inr (Or.inl (by decide)))

/-- C9 fails as stated: with a stopped job 1 in the table, `fg %1` — a builtin —
reaches `waitfg` with its guard true: `eval` blocks in the foreground wait. -/
theorem claim_C9_counterexample :
    (parseline "fg %1\n").1.head? = some "fg" ∧
      (evalModel 0 0 oneStState "fg %1\n").map EvalOut.waits = some true := by decide

end Tsh
